import Mathlib

/-!
Shallow embedding of `include/microscopes/hmm/model.hpp`, the beam sampler
for the HDP-HMM.  C++ `float` values are modelled as rationals,
`std::vector` as `List`, and every random draw consumed from the external
`distributions` library is an explicit input (a value, a list, or a
function argument standing for the sampler).  Out-of-range `std::vector`
accesses in the source are undefined behaviour; the embedding reads such
positions as default values (`getD`) and writes them as no-ops
(`List.set`), and loops whose trip counts come from the reported container
size are embedded as iteration over the rows that actually exist.
Division is rational division, with the Lean convention `x / 0 = 0` standing
in where the C++ code divides by zero (C++ floats would produce NaN).
-/

namespace Hmm

/-- Entry `(i, j)` of a ragged rational matrix (`meta_vector<float>`),
read with `operator[]` twice; out-of-range reads default to `0`. -/
def matGet (m : List (List ℚ)) (i j : ℕ) : ℚ := (m.getD i []).getD j 0

/-- Entry `(i, j)` of a ragged natural matrix (`meta_vector<size_t>`). -/
def cntGet (m : List (List ℕ)) (i j : ℕ) : ℕ := (m.getD i []).getD j 0

/-- Embedding of `meta_vector::size` (model.hpp lines 48-54).  The result
vector is constructed with `data_.size()` default-initialised entries (all
zero) and the row lengths are then appended with `push_back`, so the
returned vector has twice as many entries as there are rows: first
`data_.size()` zeros, then the row lengths. -/
def metaSize {α : Type} (data : List (List α)) : List ℕ :=
  List.replicate data.length 0 ++ data.map List.length

/-- Embedding of `meta_vector::sum` (model.hpp lines 56-62): the sum of the
elements of row `i`. -/
def metaSum (m : List (List ℕ)) (i : ℕ) : ℕ := (m.getD i []).sum

/-- The full sampler state of one `hmm<N>` object (model.hpp lines 96-123).
`gamma`, `alpha0` and `H` are the const hyperparameter members; the
remaining fields are the mutable latent variables of the sampler.  `maxPi`
models the `max_pi` member and `K` the active-state count. -/
structure HmmState where
  gamma : ℚ
  alpha0 : ℚ
  H : List ℚ
  data : List (List ℕ)
  s : List (List ℕ)
  u : List (List ℚ)
  m : List (List ℕ)
  counts : List (List ℕ)
  pi : List (List ℚ)
  phi : List (List ℚ)
  beta : List ℚ
  maxPi : ℚ
  K : ℕ
deriving DecidableEq

/-- Embedding of the constructor `hmm::hmm` (model.hpp lines 71-85).  The
constructor performs no validation of `gamma`, `alpha0` or the sequence
lengths; it unconditionally builds the initial state.  `s_` is not in the
initialiser list, so it is default-constructed with no rows.  `u_` is
constructed from `data.size()`, which (through the `meta_vector::size`
defect) is a vector of `2 * data.length` row lengths.  `max_pi` is left
uninitialised by the source, so its indeterminate initial value is an
explicit argument `maxPi0`.  `phi_` is `meta_vector<float>(1, N)` where
`N` is the length of the emission hyperparameter array `H`. -/
def hmmInit (gamma alpha0 : ℚ) (H : List ℚ) (data : List (List ℕ)) (maxPi0 : ℚ) : HmmState :=
  { gamma := gamma
    alpha0 := alpha0
    H := H
    data := data
    s := []
    u := (metaSize data).map (fun len => List.replicate len (0 : ℚ))
    m := [[0]]
    counts := [[0]]
    pi := [[0, 0]]
    phi := [List.replicate H.length (0 : ℚ)]
    beta := [0, 0]
    maxPi := maxPi0
    K := 1 }

/-- The random draws consumed by one iteration of the state-growth loop in
`sample_u`: `dir` models `sample_dirichlet` (applied to the concentration
vector built by `sample_pi_row`), `bk` the `sample_beta(rng, 1, gamma)`
stick break, and `pk` the per-row `sample_beta(rng, alpha0*beta[K],
alpha0*beta[K+1])` break for row `i`. -/
structure GrowthDraw where
  dir : List ℚ → List ℚ
  bk : ℚ
  pk : ℕ → ℚ

/-- The part of the sampler state read and written by the state-growth
loop of `sample_u` (model.hpp lines 188-210). -/
structure GState where
  pi : List (List ℚ)
  beta : List ℚ
  maxPi : ℚ
  K : ℕ
deriving DecidableEq

/-- The concentration vector built by `sample_pi_row` (model.hpp lines
222-226): `counts[i][k] + alpha0 * beta[k]` for `k < K` and
`alpha0 * beta[K]` for the unseen mass. -/
def piRowAlphas (alpha0 : ℚ) (countsRow : List ℕ) (beta : List ℚ) (K : ℕ) : List ℚ :=
  (List.range K).map (fun k => (countsRow.getD k 0 : ℚ) + alpha0 * beta.getD k 0) ++
    [alpha0 * beta.getD K 0]

/-- The copy loop of `sample_pi_row` (model.hpp lines 228-230): for every
`j` in `0..K` it stores the same value `v` into column `j` of the row.
The value stored by the source is `new_pi[i]` — indexed by the ROW index —
so the whole row receives one repeated component of the drawn vector. -/
def setRowAll (K : ℕ) (v : ℚ) (row : List ℚ) : List ℚ :=
  (List.range (K + 1)).foldl (fun r j => r.set j v) row

/-- Embedding of `hmm::sample_pi_row` (model.hpp lines 220-232) acting on
the full sampler state.  `dir` is the external `sample_dirichlet` draw for
the computed concentration vector.  Note the source stores `new_pi[i]`
(row index) into every column `j` of row `i`, and updates `max_pi` with
`new_pi[K]` (the actual drawn component). -/
def samplePiRow (dir : List ℚ → List ℚ) (i : ℕ) (st : HmmState) : HmmState :=
  let newPi := dir (piRowAlphas st.alpha0 (st.counts.getD i []) st.beta st.K)
  { st with
    pi := st.pi.set i (setRowAll st.K (newPi.getD i 0) (st.pi.getD i []))
    maxPi := max st.maxPi (newPi.getD st.K 0) }

/-- Embedding of `hmm::sample_pi` (model.hpp lines 213-218): reset
`max_pi` to zero, then redraw every instantiated row in order. -/
def samplePi (dir : ℕ → List ℚ → List ℚ) (st : HmmState) : HmmState :=
  (List.range st.K).foldl (fun s i => samplePiRow (dir i) i s) { st with maxPi := 0 }

/-- One step of the row-extension loop in `sample_u` (model.hpp lines
201-208): split the unseen mass `pu = pi[i][K]` of row `i` with the Beta break
`pk i`, store `pu * pk` in column `K`, append `pu * (1 - pk)`, and fold
both new values into the running maximum. -/
def extendRow (pk : ℕ → ℚ) (K : ℕ) (acc : List (List ℚ) × ℚ) (i : ℕ) : List (List ℚ) × ℚ :=
  let pu := matGet acc.1 i K
  (acc.1.set i (((acc.1.getD i []).set K (pu * pk i)) ++ [pu * (1 - pk i)]),
   max (max acc.2 (pu * pk i)) (pu * (1 - pk i)))

/-- Lines 190-191 of one growth iteration: `pi_.push_back` of a fresh zero
row of length `K+1` followed by `sample_pi_row(K)` on the new row (which
reads `counts_[K]`, out of range for the current counts and therefore read
as zeros, and stores the repeated component `new_pi[K]` into the row). -/
def growthNewRow (gd : GrowthDraw) (alpha0 : ℚ) (counts : List (List ℕ)) (g : GState) :
    List (List ℚ) :=
  (g.pi ++ [List.replicate (g.K + 1) (0 : ℚ)]).set g.K
    (setRowAll g.K ((gd.dir (piRowAlphas alpha0 (counts.getD g.K []) g.beta g.K)).getD g.K 0)
      ((g.pi ++ [List.replicate (g.K + 1) (0 : ℚ)]).getD g.K []))

/-- Lines 200-208 of one growth iteration: starting from the matrix with
the fresh row and `max_pi = 0`, extend rows `0..K` in order with
`extendRow`. -/
def growthExtend (gd : GrowthDraw) (alpha0 : ℚ) (counts : List (List ℕ)) (g : GState) :
    List (List ℚ) × ℚ :=
  (List.range (g.K + 1)).foldl (extendRow gd.pk g.K) (growthNewRow gd alpha0 counts g, 0)

/-- One iteration of the state-growth while-loop in `sample_u` (model.hpp
lines 188-209): push and fill the fresh row, break the `beta` stick with
`bk`, extend every row while recomputing `max_pi` from zero (line 200
discards the `max_pi` update made inside `sample_pi_row`), and increment
`K`. -/
def growthStep (gd : GrowthDraw) (alpha0 : ℚ) (counts : List (List ℕ)) (g : GState) : GState :=
  { pi := (growthExtend gd alpha0 counts g).1
    beta := (g.beta.set g.K (g.beta.getD g.K 0 * gd.bk)) ++ [g.beta.getD g.K 0 * (1 - gd.bk)]
    maxPi := (growthExtend gd alpha0 counts g).2
    K := g.K + 1 }

/-- The state-growth while-loop `while (max_pi > min_u)` of `sample_u`
(model.hpp lines 188-210), with an explicit fuel bound because the source
loop has no termination guarantee: `none` means the loop is still running
when the fuel is exhausted.  `iter` counts the iterations performed so the
draw stream `gd` can supply fresh draws to each iteration. -/
def growthLoop (alpha0 : ℚ) (counts : List (List ℕ)) (mu : ℚ) (gd : ℕ → GrowthDraw) :
    ℕ → ℕ → GState → Option GState
  | _, 0, g => if mu < g.maxPi then none else some g
  | iter, fuel + 1, g =>
    if mu < g.maxPi then
      growthLoop alpha0 counts mu gd (iter + 1) fuel (growthStep (gd iter) alpha0 counts g)
    else some g

/-- The slice update for one sequence in `sample_u` (model.hpp lines
176-184): `u[j] = unif[j] / pi[prev][s[j]]` where `prev` is `0` for
`j = 0` and `s[j-1]` otherwise.  Note the source DIVIDES the uniform draw
by the realised transition probability (its own comment at line 182 says
the intent is to scale the draw into `(0, pi)`). -/
def uRowNew (pi : List (List ℚ)) (sRow : List ℕ) (unifRow uRow : List ℚ) : List ℚ :=
  (List.range uRow.length).map (fun j =>
    let prev := if j = 0 then 0 else sRow.getD (j - 1) 0
    unifRow.getD j 0 / matGet pi prev (sRow.getD j 0))

/-- The slice-update pass of `sample_u` over every sequence (model.hpp
lines 175-185); `unifs` are the uniform `(0,1)` draws, one per slice
position. -/
def sliceU (st : HmmState) (unifs : List (List ℚ)) : List (List ℚ) :=
  (List.range st.u.length).map (fun i =>
    uRowNew st.pi (st.s.getD i []) (unifs.getD i []) (st.u.getD i []))

/-- The running minimum `min_u` of `sample_u` (model.hpp lines 174 and
183): it starts at `1.0` and is folded over every redrawn slice value in
iteration order. -/
def sliceMin (newU : List (List ℚ)) : ℚ :=
  newU.foldl (fun a row => row.foldl min a) 1

/-- Embedding of `hmm::sample_u` (model.hpp lines 170-211): redraw every
slice variable, compute the minimum slice value, then run the state-growth
loop; `gd` supplies the growth-loop draws and `fuel` bounds the unbounded
source loop. -/
def sampleU (fuel : ℕ) (unifs : List (List ℚ)) (gd : ℕ → GrowthDraw) (st : HmmState) :
    Option HmmState :=
  match growthLoop st.alpha0 st.counts (sliceMin (sliceU st unifs)) gd 0 fuel
      ⟨st.pi, st.beta, st.maxPi, st.K⟩ with
  | none => none
  | some g => some { st with u := sliceU st unifs, pi := g.pi, beta := g.beta,
                             maxPi := g.maxPi, K := g.K }

/-- The unnormalised forward-filter probabilities for one timestep of
`sample_s` (model.hpp lines 135-148).  With no previous timestep
(`t = 0`): `phi[k][o] * [u < pi[0][k]]`.  Otherwise:
`(sum over l of [u < pi[l][k]] * prev[l]) * phi[k][o]`. -/
def fwdUnnorm (phi pi : List (List ℚ)) (K : ℕ) (o : ℕ) (ut : ℚ) :
    Option (List ℚ) → List ℚ
  | none => (List.range K).map (fun k =>
      matGet phi k o * (if ut < matGet pi 0 k then 1 else 0))
  | some prev => (List.range K).map (fun k =>
      (((List.range K).map (fun l =>
        if ut < matGet pi l k then prev.getD l 0 else 0)).sum) * matGet phi k o)

/-- The normalisation loop of `sample_s` (model.hpp lines 150-152): every
entry is divided by the total, with NO check that the total is nonzero.
When the total is zero the C++ code divides by zero (producing NaN); the
rational embedding uses `x / 0 = 0` for that junk value. -/
def normalizeRow (xs : List ℚ) : List ℚ := xs.map (fun x => x / xs.sum)

/-- The forward filter of `sample_s` over one sequence (model.hpp lines
131-153), consuming the observation/slice pairs in order and threading the
previous normalised distribution. -/
def forwardFilter (phi pi : List (List ℚ)) (K : ℕ) :
    List (ℕ × ℚ) → Option (List ℚ) → List (List ℚ)
  | [], _ => []
  | ou :: rest, prev =>
    let p := normalizeRow (fwdUnnorm phi pi K ou.1 ou.2 prev)
    p :: forwardFilter phi pi K rest (some p)

/-- The zeroing step of the backward pass (model.hpp lines 158-162): entry
`k` of the distribution at the previous timestep is kept only when the
transition `k -> sNext` clears the slice (`u < pi[k][sNext]`), otherwise
it is set to zero. -/
def bwdStep (pi : List (List ℚ)) (K : ℕ) (ut : ℚ) (sNext : ℕ) (row : List ℚ) : List ℚ :=
  (List.range K).map (fun k => if ut < matGet pi k sNext then row.getD k 0 else 0)

/-- The backward-sampling walk of `sample_s` (model.hpp lines 157-166),
processed latest-first: each element of the input list is the pair of the
slice value at time `t` and the forward distribution at time `t-1`; `lik`
models `sample_from_likelihoods` (call number, likelihood vector, sampled
index). -/
def bwdGo (pi : List (List ℚ)) (K : ℕ) (lik : ℕ → List ℚ → ℕ) :
    ℕ → ℕ → List (ℚ × List ℚ) → List ℕ
  | _, _, [] => []
  | n, sNext, p :: rest =>
    let row := bwdStep pi K p.1 sNext p.2
    let sPrev := lik n row
    sPrev :: bwdGo pi K lik (n + 1) sPrev rest

/-- Forward filter plus backward sample for one sequence (model.hpp lines
130-166).  The sampled states are returned in time order.  For an empty
sequence the source indexes `probs[-1]` (undefined behaviour); the
embedding then samples from an empty likelihood vector. -/
def sampleSeq (lik : ℕ → List ℚ → ℕ) (phi pi : List (List ℚ)) (K : ℕ)
    (obs : List ℕ) (u : List ℚ) : List ℕ :=
  let probs := forwardFilter phi pi K (obs.zip u) none
  let sLast := lik 0 (probs.getD (probs.length - 1) [])
  let pairs := (u.reverse.take (probs.length - 1)).zip (probs.reverse.drop 1)
  (bwdGo pi K lik 1 sLast pairs).reverse ++ [sLast]

/-- Embedding of `hmm::sample_s` (model.hpp lines 126-168).  `counts_` is
reset to `meta_vector<size_t>(pi_.size().size())`: through the
`meta_vector::size` defect this is `2 * K` rows, each EMPTY.  The comment
`// Update counts` at line 164 has no code after it: no transition count
is ever accumulated.  The states of each sequence are resampled by
`sampleSeq`; the source writes them into the rows of the
default-constructed (rowless) `s_`, which is undefined behaviour, so the
embedding records the sampled rows directly. -/
def sampleS (lik : ℕ → ℕ → List ℚ → ℕ) (st : HmmState) : HmmState :=
  { st with
    counts := List.replicate (metaSize st.pi).length ([] : List ℕ)
    s := (List.range st.data.length).map (fun i =>
      sampleSeq (lik i) st.phi st.pi st.K (st.data.getD i []) (st.u.getD i [])) }

/-- Embedding of `hmm::sample_phi` (model.hpp lines 234-236): the body of
the function is empty, so it changes nothing. -/
def samplePhi (st : HmmState) : HmmState := st

/-- The log-score vector built by `sample_m` for one pair (model.hpp lines
248-251): `scores[m] = logStir[m+1] + (m+1) * (log alpha0 + log beta[j])`
for `m` in `0..n-1`, where `logStir` is the cached row of log Stirling
numbers for the count `n`.  The logarithms are abstract inputs. -/
def mScores (logStir : List ℚ) (lga lgb : ℚ) (n : ℕ) : List ℚ :=
  (List.range n).map (fun m => logStir.getD (m + 1) 0 + ((m : ℚ) + 1) * (lga + lgb))

/-- One table-count draw of `sample_m` (model.hpp line 252): the external
`sample_from_scores_overwrite` result PLUS ONE.  For `n = 0` the score
vector is empty, so the external sampler is called on an empty vector and
the stored count is still `index + 1`. -/
def mEntry (score : List ℚ → ℕ) (logStir : List ℚ) (lga lgb : ℚ) (n : ℕ) : ℕ :=
  score (mScores logStir lga lgb n) + 1

/-- Embedding of `hmm::sample_m` (model.hpp lines 238-255): for every pair
`(i, j)` of instantiated states, store `mEntry` for the count
`counts[i][j]`.  `score` models `sample_from_scores_overwrite` per pair,
`logStirRow` the pure `log_stirling1_row` (memoisation of a pure function
is not observable in the values), and `lg` the real logarithm. -/
def sampleM (score : ℕ → ℕ → List ℚ → ℕ) (logStirRow : ℕ → List ℚ) (lg : ℚ → ℚ)
    (st : HmmState) : HmmState :=
  { st with
    m := (List.range st.K).foldl (fun mm i =>
      mm.set i ((List.range st.K).foldl (fun row j =>
        row.set j (mEntry (score i j) (logStirRow (cntGet st.counts i j))
          (lg st.alpha0) (lg (st.beta.getD j 0)) (cntGet st.counts i j)))
        (mm.getD i []))) st.m }

/-- Embedding of `hmm::sample_beta` (model.hpp lines 257-269): run
`sample_m`, build the concentration vector from the row sums of `m_` plus
`gamma` for the unseen mass, draw a Dirichlet vector `dirB`, and copy its
`K+1` entries into `beta_`. -/
def sampleBeta (score : ℕ → ℕ → List ℚ → ℕ) (logStirRow : ℕ → List ℚ) (lg : ℚ → ℚ)
    (dirB : List ℚ → List ℚ) (st : HmmState) : HmmState :=
  let st1 := sampleM score logStirRow lg st
  let newBeta := dirB ((List.range st1.K).map (fun k => (metaSum st1.m k : ℚ)) ++ [st1.gamma])
  { st1 with
    beta := (List.range (st1.K + 1)).foldl (fun b k => b.set k (newBeta.getD k 0)) st1.beta }

/-- Embedding of `hmm::sample_beam` (model.hpp lines 87-93): the five
stages in their fixed order `sample_u`, `sample_s`, `sample_pi`,
`sample_phi`, `sample_beta`.  `none` means the state-growth loop of
`sample_u` was still running when the fuel ran out. -/
def sampleBeam (fuel : ℕ) (unifs : List (List ℚ)) (gd : ℕ → GrowthDraw)
    (lik : ℕ → ℕ → List ℚ → ℕ) (dirPi : ℕ → List ℚ → List ℚ)
    (score : ℕ → ℕ → List ℚ → ℕ) (logStirRow : ℕ → List ℚ) (lg : ℚ → ℚ)
    (dirB : List ℚ → List ℚ) (st : HmmState) : Option HmmState :=
  match sampleU fuel unifs gd st with
  | none => none
  | some st1 =>
    some (sampleBeta score logStirRow lg dirB (samplePhi (samplePi dirPi (sampleS lik st1))))

/-- Spec-side definition, following the words of the specification for the
transition counts: the number of consecutive timestep pairs across all
state sequences whose earlier state is `i` and later state is `j`. -/
def specTransCount (s : List (List ℕ)) (i j : ℕ) : ℕ :=
  (s.map (fun row => (row.zip row.tail).countP (fun p => decide (p.1 = i ∧ p.2 = j)))).sum

/-- A growth-loop draw stream under which the unseen mass never shrinks:
each new-row Dirichlet draw is the all-ones vector and every stick break
returns zero, so `pi[i][K] := pu * 0 = 0` and the appended column receives
`pu * 1 = pu` unchanged. -/
def badDraw : GrowthDraw :=
  { dir := fun as => List.replicate as.length 1, bk := 0, pk := fun _ => 0 }

/-- A growth-loop state with one instantiated state whose unseen-mass
maximum `1` exceeds the minimum slice value `1/2`. -/
def gBad : GState := { pi := [[1/2, 1/2]], beta := [1/2, 1/2], maxPi := 1, K := 1 }

/-- Concrete sampler state for the slice-invariant check: one sequence of
one observation, previous sampled state `0`, and realised transition
probability `pi[0][0] = 1/2`. -/
def stC1 : HmmState :=
  { gamma := 1, alpha0 := 1, H := [1], data := [[0]], s := [[0]], u := [[0]],
    m := [[0]], counts := [[0]], pi := [[1/2, 1/2]], phi := [[1]],
    beta := [1/2, 1/2], maxPi := 0, K := 1 }

/-- Concrete sampler state for the transition-row copy check: one
instantiated state, counts `[[2]]`. -/
def stC2 : HmmState :=
  { gamma := 1, alpha0 := 1, H := [1], data := [[0]], s := [[0]], u := [[0]],
    m := [[0]], counts := [[2]], pi := [[0, 0]], phi := [[1]],
    beta := [1/2, 1/2], maxPi := 5, K := 1 }

/-- Concrete sampler state for the transition-count check: one sequence of
two observations whose forward filter is deterministic. -/
def stC3 : HmmState :=
  { gamma := 1, alpha0 := 1, H := [1], data := [[0, 0]], s := [[9, 9]],
    u := [[1/2, 1/2]], m := [[0]], counts := [[7]], pi := [[1, 0]], phi := [[1]],
    beta := [1/2, 1/2], maxPi := 0, K := 1 }

/-- Concrete sampler state for the underflow check: the only emission
probability is zero, so the normalising total of the forward filter is zero at
timestep 0. -/
def stC4 : HmmState :=
  { gamma := 1, alpha0 := 1, H := [1], data := [[0]], s := [[3]], u := [[1/2]],
    m := [[0]], counts := [[0]], pi := [[1, 0]], phi := [[0]],
    beta := [1/2, 1/2], maxPi := 0, K := 1 }

/-- Concrete sampler state for the zero-count table check: one
instantiated state with transition count `0`. -/
def stC7 : HmmState :=
  { gamma := 1, alpha0 := 1, H := [1], data := [[0]], s := [[0]], u := [[0]],
    m := [[5]], counts := [[0]], pi := [[1, 0]], phi := [[1]],
    beta := [1/2, 1/2], maxPi := 0, K := 1 }

/-- Concrete sampler state on which a full beam sweep runs to completion
with zero growth-loop iterations. -/
def stC8 : HmmState :=
  { gamma := 1, alpha0 := 1, H := [1], data := [[0, 0]], s := [[0, 0]],
    u := [[0, 0]], m := [[0]], counts := [[0]], pi := [[1, 0]], phi := [[1]],
    beta := [1/2, 1/2], maxPi := 0, K := 1 }

/-- The state produced by one full beam sweep from `stC8` under the
concrete draws used in the monotonicity witness. -/
def stC8r : HmmState :=
  { gamma := 1, alpha0 := 1, H := [1], data := [[0, 0]], s := [[0, 0]],
    u := [[1/2, 1/2]], m := [[1]], counts := [[], []], pi := [[1, 1]], phi := [[1]],
    beta := [1/3, 2/3], maxPi := 0, K := 1 }

section

attribute [local semireducible] Rat.mul Rat.inv Rat.add Rat.sub

/-- Setting one index leaves the `getD` value of every other index
unchanged. -/
theorem getD_set_ne {α : Type} (d a : α) :
    ∀ (l : List α) (i j : ℕ), i ≠ j → (l.set i a).getD j d = l.getD j d := by
  intro l
  induction l with
  | nil => intro i j _; rfl
  | cons x xs ih =>
    intro i j hij
    cases i with
    | zero =>
      cases j with
      | zero => exact absurd rfl hij
      | succ j => rfl
    | succ i =>
      cases j with
      | zero => rfl
      | succ j =>
        show (xs.set i a).getD j d = xs.getD j d
        exact ih i j (fun e => hij (congrArg Nat.succ e))

/-- Setting an in-range index makes `getD` return the new value. -/
theorem getD_set_self {α : Type} (d a : α) :
    ∀ (l : List α) (i : ℕ), i < l.length → (l.set i a).getD i d = a := by
  intro l
  induction l with
  | nil => intro i h; exact absurd h (Nat.not_lt_zero i)
  | cons x xs ih =>
    intro i h
    cases i with
    | zero => rfl
    | succ i => exact ih i (Nat.lt_of_succ_lt_succ h)

/-- Every in-range position of a replicated list holds the repeated
value. -/
theorem getD_replicate_lt {α : Type} (d a : α) (n i : ℕ) (h : i < n) :
    (List.replicate n a).getD i d = a := by
  rw [List.getD_eq_getElem _ _ (by simpa using h)]
  exact List.getElem_replicate ..

/-- Folding constant-value `set` operations preserves the list length. -/
theorem length_foldl_set {α : Type} (v : α) :
    ∀ (idx : List ℕ) (l : List α), (idx.foldl (fun r j => r.set j v) l).length = l.length := by
  intro idx
  induction idx with
  | nil => intro l; rfl
  | cons i is ih => intro l; rw [List.foldl_cons, ih, List.length_set]

/-- The concentration vector of `sample_pi_row` has dimension `K + 1`. -/
theorem piRowAlphas_length (a : ℚ) (cr : List ℕ) (b : List ℚ) (K : ℕ) :
    (piRowAlphas a cr b K).length = K + 1 := by
  simp [piRowAlphas]

/-- After the copy loop of `sample_pi_row`, position `K` of the row holds
the copied value. -/
theorem setRowAll_getD_last (K : ℕ) (v : ℚ) (row : List ℚ) (h : K < row.length) :
    (setRowAll K v row).getD K 0 = v := by
  unfold setRowAll
  rw [List.range_succ, List.foldl_append, List.foldl_cons, List.foldl_nil]
  exact getD_set_self 0 v _ K (by rw [length_foldl_set]; exact h)

/-- The row-extension fold preserves the number of rows. -/
theorem length_foldl_extendRow (pk : ℕ → ℚ) (K : ℕ) :
    ∀ (idx : List ℕ) (acc : List (List ℚ) × ℚ),
      ((idx.foldl (extendRow pk K) acc).1).length = (acc.1).length := by
  intro idx
  induction idx with
  | nil => intro acc; rfl
  | cons i is ih =>
    intro acc
    rw [List.foldl_cons, ih]
    simp [extendRow]

/-- The row-extension fold leaves rows it does not visit unchanged. -/
theorem getD_foldl_extendRow_ne (pk : ℕ → ℚ) (K k : ℕ) :
    ∀ (idx : List ℕ) (acc : List (List ℚ) × ℚ), (∀ i ∈ idx, i ≠ k) →
      ((idx.foldl (extendRow pk K) acc).1).getD k [] = (acc.1).getD k [] := by
  intro idx
  induction idx with
  | nil => intro acc _; rfl
  | cons i is ih =>
    intro acc h
    rw [List.foldl_cons, ih _ (fun x hx => h x (List.mem_cons_of_mem i hx))]
    exact getD_set_ne [] _ (acc.1) i k (h i (List.mem_cons_self i is))

/-- If the visited row has value `1` in column `K` and the break draw for
the last visited row is `0`, the recomputed `max_pi` of the extension fold
is at least `1`. -/
theorem foldl_extendRow_last_ge (pk : ℕ → ℚ) (K : ℕ) (start : List (List ℚ) × ℚ)
    (hpk : pk K = 0) (hrow : (start.1.getD K []).getD K 0 = 1) :
    1 ≤ ((List.range (K + 1)).foldl (extendRow pk K) start).2 := by
  rw [List.range_succ, List.foldl_append, List.foldl_cons, List.foldl_nil]
  set mid := (List.range K).foldl (extendRow pk K) start with hmid
  have h1 : (mid.1).getD K [] = start.1.getD K [] :=
    getD_foldl_extendRow_ne pk K K _ _ (fun i hi => Nat.ne_of_lt (List.mem_range.mp hi))
  have hpu : matGet mid.1 K K = 1 := by unfold matGet; rw [h1, hrow]
  have h2 : (extendRow pk K mid K).2 =
      max (max mid.2 (matGet mid.1 K K * pk K)) (matGet mid.1 K K * (1 - pk K)) := rfl
  rw [h2, hpu, hpk]
  have h3 : (1 : ℚ) * (1 - 0) = 1 := by norm_num
  rw [h3]
  exact le_max_right _ _

/-- One growth iteration increments the active-state count. -/
theorem growthStep_K (gd : GrowthDraw) (a : ℚ) (c : List (List ℕ)) (g : GState) :
    (growthStep gd a c g).K = g.K + 1 := rfl

/-- One growth iteration adds exactly one row to the transition matrix. -/
theorem growthStep_pi_length (gd : GrowthDraw) (a : ℚ) (c : List (List ℕ)) (g : GState) :
    (growthStep gd a c g).pi.length = g.pi.length + 1 := by
  have h : (growthStep gd a c g).pi = (growthExtend gd a c g).1 := rfl
  rw [h]
  unfold growthExtend growthNewRow
  rw [length_foldl_extendRow, List.length_set, List.length_append]
  rfl

/-- Position `K` of the fresh row built by `growthNewRow` under the
degenerate draw stream holds `1`. -/
theorem growthNewRow_badDraw_getD (a : ℚ) (c : List (List ℕ)) (g : GState)
    (hl : g.pi.length = g.K) :
    ((growthNewRow badDraw a c g).getD g.K []).getD g.K 0 = 1 := by
  have hrow : (g.pi ++ [List.replicate (g.K + 1) (0 : ℚ)]).getD g.K [] =
      List.replicate (g.K + 1) 0 := by
    rw [List.getD_append_right _ _ _ _ (le_of_eq hl), hl, Nat.sub_self]
    rfl
  have hlen1 : g.K < (g.pi ++ [List.replicate (g.K + 1) (0 : ℚ)]).length := by
    rw [List.length_append, hl]
    simp
  have hval : (badDraw.dir (piRowAlphas a (c.getD g.K []) g.beta g.K)).getD g.K 0 = 1 := by
    show (List.replicate (piRowAlphas a (c.getD g.K []) g.beta g.K).length 1).getD g.K 0 = 1
    apply getD_replicate_lt
    rw [piRowAlphas_length]
    exact Nat.lt_succ_self _
  unfold growthNewRow
  rw [getD_set_self _ _ _ _ hlen1, hval, hrow]
  apply setRowAll_getD_last
  simp

/-- Under the degenerate draw stream the recomputed `max_pi` after one
growth iteration is at least `1`. -/
theorem growthStep_badDraw_maxPi (a : ℚ) (c : List (List ℕ)) (g : GState)
    (hl : g.pi.length = g.K) : 1 ≤ (growthStep badDraw a c g).maxPi := by
  have h : (growthStep badDraw a c g).maxPi = (growthExtend badDraw a c g).2 := rfl
  rw [h]
  unfold growthExtend
  exact foldl_extendRow_last_ge _ _ _ rfl (growthNewRow_badDraw_getD a c g hl)

/-- Unfolding equation of the growth loop at fuel zero. -/
theorem growthLoop_zero (a : ℚ) (c : List (List ℕ)) (mu : ℚ) (gd : ℕ → GrowthDraw)
    (iter : ℕ) (g : GState) :
    growthLoop a c mu gd iter 0 g = if mu < g.maxPi then none else some g := rfl

/-- Unfolding equation of the growth loop at positive fuel. -/
theorem growthLoop_succ (a : ℚ) (c : List (List ℕ)) (mu : ℚ) (gd : ℕ → GrowthDraw)
    (iter fuel : ℕ) (g : GState) :
    growthLoop a c mu gd iter (fuel + 1) g =
      if mu < g.maxPi then
        growthLoop a c mu gd (iter + 1) fuel (growthStep (gd iter) a c g)
      else some g := rfl

/-- Under the degenerate draw stream the growth loop never exits: the
unseen mass max stays at least `1` forever, so for every fuel value it
runs out of fuel. -/
theorem growthLoop_badDraw_none (a : ℚ) (c : List (List ℕ)) (mu : ℚ) (hmu : mu < 1) :
    ∀ (fuel iter : ℕ) (g : GState), g.pi.length = g.K → mu < g.maxPi →
      growthLoop a c mu (fun _ => badDraw) iter fuel g = none := by
  intro fuel
  induction fuel with
  | zero => intro iter g _ hm; rw [growthLoop_zero, if_pos hm]
  | succ f ih =>
    intro iter g hl hm
    rw [growthLoop_succ, if_pos hm]
    apply ih
    · rw [growthStep_pi_length, growthStep_K, hl]
    · exact lt_of_lt_of_le hmu (growthStep_badDraw_maxPi a c g hl)

/-- A growth loop that exits within its fuel bound never decreases the
active-state count. -/
theorem growthLoop_K_le (a : ℚ) (c : List (List ℕ)) (mu : ℚ) (gd : ℕ → GrowthDraw) :
    ∀ (fuel iter : ℕ) (g g' : GState),
      growthLoop a c mu gd iter fuel g = some g' → g.K ≤ g'.K := by
  intro fuel
  induction fuel with
  | zero =>
    intro iter g g' h
    rw [growthLoop_zero] at h
    by_cases hm : mu < g.maxPi
    · rw [if_pos hm] at h; exact absurd h (by simp)
    · rw [if_neg hm] at h; injection h with h2; exact h2 ▸ Nat.le_refl _
  | succ f ih =>
    intro iter g g' h
    rw [growthLoop_succ] at h
    by_cases hm : mu < g.maxPi
    · rw [if_pos hm] at h
      have h3 := ih (iter + 1) _ g' h
      rw [growthStep_K] at h3
      exact le_trans (Nat.le_succ _) h3
    · rw [if_neg hm] at h; injection h with h2; exact h2 ▸ Nat.le_refl _

/-- The state-sequence stage does not touch the active-state count. -/
theorem sampleS_K (lik : ℕ → ℕ → List ℚ → ℕ) (st : HmmState) :
    (sampleS lik st).K = st.K := rfl

/-- Redrawing one transition row does not touch the active-state count. -/
theorem samplePiRow_K (dir : List ℚ → List ℚ) (i : ℕ) (st : HmmState) :
    (samplePiRow dir i st).K = st.K := rfl

/-- The transition-matrix stage does not touch the active-state count. -/
theorem samplePi_K (dir : ℕ → List ℚ → List ℚ) (st : HmmState) :
    (samplePi dir st).K = st.K := by
  have h : ∀ (l : List ℕ) (s : HmmState),
      ((l.foldl (fun s i => samplePiRow (dir i) i s) s)).K = s.K := by
    intro l
    induction l with
    | nil => intro s; rfl
    | cons x xs ih => intro s; rw [List.foldl_cons, ih, samplePiRow_K]
  exact h (List.range st.K) _

/-- The emission stage does not touch the active-state count. -/
theorem samplePhi_K (st : HmmState) : (samplePhi st).K = st.K := rfl

/-- The stick-weight stage does not touch the active-state count. -/
theorem sampleBeta_K (score : ℕ → ℕ → List ℚ → ℕ) (logStirRow : ℕ → List ℚ)
    (lg : ℚ → ℚ) (dirB : List ℚ → List ℚ) (st : HmmState) :
    (sampleBeta score logStirRow lg dirB st).K = st.K := rfl

/-- A slice stage that completes never decreases the active-state
count. -/
theorem sampleU_K_le (fuel : ℕ) (unifs : List (List ℚ)) (gd : ℕ → GrowthDraw)
    (st st' : HmmState) (h : sampleU fuel unifs gd st = some st') : st.K ≤ st'.K := by
  unfold sampleU at h
  cases hgl : growthLoop st.alpha0 st.counts (sliceMin (sliceU st unifs)) gd 0 fuel
      ⟨st.pi, st.beta, st.maxPi, st.K⟩ with
  | none => rw [hgl] at h; exact absurd h (by simp)
  | some g =>
    rw [hgl] at h
    injection h with h2
    have hK := growthLoop_K_le _ _ _ _ fuel 0 _ g hgl
    rw [← h2]
    exact hK

/-- C8: the active-state count K is monotonically non-decreasing across a
beam sweep.  The only place in the source that writes `K` is the increment
inside the state-growth loop of `sample_u` (model.hpp line 209): the
slice stage can only increase `K`, and the state-sequence,
transition-matrix, emission and stick-weight stages leave `K` unchanged
(the helper lemmas `sampleS_K`, `samplePi_K`, `samplePhi_K` and
`sampleBeta_K` are exact equalities).  Hence across any sequence of
completed sweeps `K` never decreases. -/
theorem sampleBeam_K_monotone (fuel : ℕ) (unifs : List (List ℚ)) (gd : ℕ → GrowthDraw)
    (lik : ℕ → ℕ → List ℚ → ℕ) (dirPi : ℕ → List ℚ → List ℚ)
    (score : ℕ → ℕ → List ℚ → ℕ) (logStirRow : ℕ → List ℚ) (lg : ℚ → ℚ)
    (dirB : List ℚ → List ℚ) (st st' : HmmState)
    (h : sampleBeam fuel unifs gd lik dirPi score logStirRow lg dirB st = some st') :
    st.K ≤ st'.K := by
  unfold sampleBeam at h
  cases hu : sampleU fuel unifs gd st with
  | none => rw [hu] at h; exact absurd h (by simp)
  | some st1 =>
    rw [hu] at h
    injection h with h2
    have h1 := sampleU_K_le fuel unifs gd st st1 hu
    rw [← h2, sampleBeta_K, samplePhi_K, samplePi_K, sampleS_K]
    exact h1

/-- Witness for `sampleBeam_K_monotone`: a full beam sweep from `stC8`
with concrete draws completes and returns `stC8r`, whose `K` is no
smaller. -/
theorem sampleBeam_K_monotone_wit : stC8.K ≤ stC8r.K :=
  sampleBeam_K_monotone 0 [[1/2, 1/2]] (fun _ => badDraw) (fun _ _ _ => 0)
    (fun _ _ => [1, 0]) (fun _ _ _ => 0) (fun _ => []) (fun q => q)
    (fun _ => [1/3, 2/3]) stC8 stC8r (by decide)

/-- C1: the beam-sampling slice invariant FAILS on the code.  `sample_u`
divides the uniform draw by the realised transition probability
(model.hpp line 182) instead of multiplying, so with `pi[0][0] = 1/2` and
uniform draw `9/10` the stored slice value is `9/5`, and the realised
transition probability `1/2` is NOT strictly greater than it.  The comment
in the source at line 182 states the intended scaling into `(0, pi)`. -/
theorem sampleU_slice_invariant_fails :
    sampleU 0 [[9/10]] (fun _ => badDraw) stC1 = some { stC1 with u := [[9/5]] } ∧
    matGet stC1.pi 0 ((stC1.s.getD 0 []).getD 0 0) ≤ (9 : ℚ) / 5 := by
  decide

/-- C2: the transition-matrix row copy FAILS on the code.  `sample_pi_row`
stores `new_pi[i]` (the row index) into every column (model.hpp line 229),
so with `K = 1` and the Dirichlet draw `[3/10, 7/10]` for row `0`, the
stored row is `[3/10, 3/10]`: it is not the drawn vector and it does not
sum to `1`. -/
theorem samplePi_row_copy_defect :
    samplePi (fun _ _ => [3/10, 7/10]) stC2 =
      { stC2 with pi := [[3/10, 3/10]], maxPi := 7/10 } ∧
    (samplePi (fun _ _ => [3/10, 7/10]) stC2).pi.getD 0 [] ≠ [3/10, 7/10] ∧
    ((samplePi (fun _ _ => [3/10, 7/10]) stC2).pi.getD 0 []).sum ≠ 1 := by
  decide

/-- C3: the transition counts are NOT rebuilt by `sample_s`.  The stage
resets `counts_` to empty rows (through the `meta_vector::size` defect, to
`2 K` empty rows) and the accumulation announced by the comment
`// Update counts` at model.hpp line 164 has no code: after the stage the
freshly sampled sequence `[[0, 0]]` contains one `0 -> 0` transition but
the stored count for `(0, 0)` is `0`. -/
theorem sampleS_counts_not_accumulated :
    sampleS (fun _ _ _ => 0) stC3 = { stC3 with counts := [[], []], s := [[0, 0]] } ∧
    specTransCount (sampleS (fun _ _ _ => 0) stC3).s 0 0 = 1 ∧
    cntGet (sampleS (fun _ _ _ => 0) stC3).counts 0 0 = 0 := by
  decide

/-- C4: no `NumericUnderflow` error is signalled.  On `stC4` the
unnormalised forward-filter total at timestep `0` is `0`, yet `sample_s`
performs the normalising division anyway (division by zero: NaN in the
C++ floats, the junk value `0` in the rational embedding) and completes
normally, returning a state; the source has no error path at all
(model.hpp lines 150-152). -/
theorem sampleS_no_underflow_signal :
    (fwdUnnorm stC4.phi stC4.pi stC4.K 0 (1/2) none).sum = 0 ∧
    sampleS (fun _ _ _ => 0) stC4 = { stC4 with counts := [[], []], s := [[0]] } := by
  decide

/-- C5: construction never fails.  The constructor performs no validation
(model.hpp lines 71-85): with `gamma = -1 < 0`, `alpha0 = -1/2 < 0` and a
zero-length first sequence it still returns a state, with `K = 1`, a 1 by 2
transition matrix and a 2-entry stick-weight vector (the slice container
also inherits the `meta_vector::size` defect: four rows for two
sequences). -/
theorem hmmInit_no_validation :
    hmmInit (-1) (-1/2) [1] [[], [0]] 0 =
      { gamma := -1, alpha0 := -1/2, H := [1], data := [[], [0]], s := [],
        u := [[], [], [], [0]], m := [[0]], counts := [[0]], pi := [[0, 0]],
        phi := [[0]], beta := [0, 0], maxPi := 0, K := 1 } ∧
    (hmmInit (-1) (-1/2) [1] [[], [0]] 0).K = 1 ∧
    (hmmInit (-1) (-1/2) [1] [[], [0]] 0).beta.length = 2 := by
  decide

/-- C6: the state-growth loop has NO safety bound and need not terminate.
Starting from `gBad` (unseen-mass maximum `1`, minimum slice value `1/2`)
with a draw stream whose stick breaks are all `0`, the loop guard
`max_pi > min_u` holds after every iteration, so for EVERY fuel value the
loop is still running: the source surfaces no `NonConvergentGrowth`
condition (model.hpp lines 188-210). -/
theorem growthLoop_no_safety_bound (fuel : ℕ) :
    growthLoop 1 [[0]] (1/2) (fun _ => badDraw) 0 fuel gBad = none :=
  growthLoop_badDraw_none 1 [[0]] (1/2) (by norm_num) fuel 0 gBad (by decide) (by decide)

/-- C7: the table-count bound FAILS at a zero transition count.  For
`counts[0][0] = 0` the score vector is empty, yet `sample_m` still stores
the sampled index plus one (model.hpp line 252): whatever index the
external sampler returns, the stored table count is at least `1`, which
exceeds the transition count `0`. -/
theorem sampleM_exceeds_zero_count (f : List ℚ → ℕ) (ls : List ℚ) (lg : ℚ → ℚ) :
    cntGet (sampleM (fun _ _ => f) (fun _ => ls) lg stC7).m 0 0 = f [] + 1 ∧
    cntGet stC7.counts 0 0 = 0 ∧
    0 < f [] + 1 := by
  exact ⟨rfl, rfl, Nat.succ_pos _⟩

/-- C9: `meta_vector::size` does NOT return one length per row.  It
returns a vector twice as long as the row count (leading zeros followed by
the row lengths): for the single row `[5, 6]` it returns `[0, 2]`, not
`[2]`. -/
theorem metaVector_size_defect :
    (∀ d : List (List ℕ), (metaSize d).length = 2 * d.length) ∧
    metaSize ([[5, 6]] : List (List ℕ)) = [0, 2] ∧
    ([0, 2] : List ℕ) ≠ [2] := by
  refine ⟨fun d => ?_, by decide, by decide⟩
  simp [metaSize, two_mul]

/-- C10: the emission stage is a no-op.  The body of `sample_phi`
(model.hpp lines 234-236) is empty, so every field of the sampler state —
the emission matrix, state sequence, slice variables, counts, table
counts, transition matrix, stick weights, `max_pi`, `K`, the data and the
hyperparameters — is unchanged. -/
theorem samplePhi_frame (st : HmmState) :
    (samplePhi st).phi = st.phi ∧ (samplePhi st).s = st.s ∧ (samplePhi st).u = st.u ∧
    (samplePhi st).counts = st.counts ∧ (samplePhi st).m = st.m ∧
    (samplePhi st).pi = st.pi ∧ (samplePhi st).beta = st.beta ∧
    (samplePhi st).K = st.K ∧ (samplePhi st).maxPi = st.maxPi ∧
    (samplePhi st).data = st.data ∧ (samplePhi st).gamma = st.gamma ∧
    (samplePhi st).alpha0 = st.alpha0 ∧ (samplePhi st).H = st.H :=
  ⟨rfl, rfl, rfl, rfl, rfl, rfl, rfl, rfl, rfl, rfl, rfl, rfl, rfl⟩

end

end Hmm
